import Mathlib

/-!
Shallow embedding of `molencoder/featurizers.py` (class `OneHotFeaturizer`).

Strings are modelled as `List Char`, numpy arrays as nested lists of `Int`,
and Python exceptions as an `Except PyExc` result.  Each definition below is
translated directly from the corresponding Python method; the Python source
is quoted in the doc comments.
-/

/-- Python exception classes relevant to this code.  In CPython,
`IndexError` and `KeyError` are subclasses of `LookupError`;
`ValueError` and `TypeError` are not. -/
inductive PyExc where
  | valueError
  | typeError
  | indexError
  | lookupError
deriving DecidableEq

deriving instance DecidableEq for Except

/-- Whether an exception is an instance of Python's `LookupError`
(its subclasses are `IndexError` and `KeyError`; `ValueError` and
`TypeError` are not `LookupError`s). -/
def isLookupError : PyExc → Bool
  | .indexError => true
  | .lookupError => true
  | _ => false

/-- Evaluate `f` on each element left to right, stopping at the first
exception — the semantics of a Python list comprehension or loop whose body
may raise. -/
def mapExcept (f : α → Except PyExc β) : List α → Except PyExc (List β)
  | [] => .ok []
  | a :: l =>
    match f a with
    | .error e => .error e
    | .ok b =>
      match mapExcept f l with
      | .error e => .error e
      | .ok bs => .ok (b :: bs)

/-- Python `list.index` semantics: index of the first occurrence of `c` in
`cs`, or `none` when `c` does not occur (where `list.index` raises
`ValueError`). -/
def pyIndex (cs : List Char) (c : Char) : Option Nat :=
  match cs with
  | [] => none
  | a :: rest => if a = c then some 0 else (pyIndex rest c).map (· + 1)

/-- Characters stripped by Python `str.strip()` (ASCII whitespace:
`' \t\n\r\x0b\x0c'`). -/
def isPySpace (c : Char) : Bool :=
  c = ' ' || c = '\t' || c = '\n' || c = '\r' || c = '\x0b' || c = '\x0c'

/-- Python `str.strip()`: remove leading and trailing whitespace. -/
def pyStrip (l : List Char) : List Char :=
  ((l.dropWhile isPySpace).reverse.dropWhile isPySpace).reverse

/-- `OneHotFeaturizer.__init__`: `self.charset = charset` (default `None`),
`self.pad_length = padlength`. -/
structure OneHotFeaturizer where
  charset : Option (List Char)
  pad_length : Nat
deriving DecidableEq

/-- `OneHotFeaturizer.one_hot_array`:
`return [int(x) for x in [ix == i for ix in range(len(self.charset))]]`. -/
def one_hot_array (cs : List Char) (i : Nat) : List Int :=
  (List.range cs.length).map (fun ix => if ix = i then 1 else 0)

/-- `OneHotFeaturizer.one_hot_index`: `return self.charset.index(c)` —
raises `ValueError` when `c` is not in the charset list. -/
def one_hot_index (cs : List Char) (c : Char) : Except PyExc Nat :=
  match pyIndex cs c with
  | some i => .ok i
  | none => .error .valueError

/-- `OneHotFeaturizer.pad_smile`: `return smile.ljust(self.pad_length)` —
right-pad with spaces up to `pad_length`; a no-op for longer strings. -/
def pad_smile (padLen : Nat) (smile : List Char) : List Char :=
  smile ++ List.replicate (padLen - smile.length) ' '

/-- `OneHotFeaturizer.one_hot_encoded`:
`np.array([self.one_hot_array(self.one_hot_index(x)) for x in self.pad_smile(smile)])`. -/
def one_hot_encoded (cs : List Char) (padLen : Nat) (smile : List Char) :
    Except PyExc (List (List Int)) :=
  mapExcept (fun x =>
    match one_hot_index cs x with
    | .ok i => .ok (one_hot_array cs i)
    | .error e => .error e) (pad_smile padLen smile)

/-- `OneHotFeaturizer._create_charset`: collect the set of characters of all
strings, return `[' '] + sorted(list(s))`. -/
def _create_charset (smiles : List (List Char)) : List Char :=
  ' ' :: ((smiles.flatten.dedup).insertionSort (· ≤ ·))

/-- `OneHotFeaturizer.featurize`:
`if self.charset is None: self.charset = self._create_charset(smiles)` then
`return np.array([self.one_hot_encoded(smile) for smile in smiles])`.
Returns the updated object state together with the result. -/
def featurize (f : OneHotFeaturizer) (smiles : List (List Char)) :
    OneHotFeaturizer × Except PyExc (List (List (List Int))) :=
  match f.charset with
  | none =>
    let cs := _create_charset smiles
    (⟨some cs, f.pad_length⟩, mapExcept (one_hot_encoded cs f.pad_length) smiles)
  | some cs =>
    (⟨some cs, f.pad_length⟩, mapExcept (one_hot_encoded cs f.pad_length) smiles)

/-- `np.argmax` on a 1-D integer array: index of the first occurrence of the
maximum value, i.e. the first entry that is `≥` every entry. -/
def argmaxIdx (l : List Int) : Nat :=
  l.findIdx (fun x => l.all (fun y => decide (y ≤ x)))

/-- `np.argmax` raises `ValueError` on an empty sequence. -/
def np_argmax (row : List Int) : Except PyExc Nat :=
  if row.isEmpty then .error .valueError else .ok (argmaxIdx row)

/-- Body of the inner loop of `OneHotFeaturizer.untransform`:
`oh = np.argmax(z[i][j]); s += self.charset[oh]` — subscripting `None`
raises `TypeError`, an out-of-range index raises `IndexError`. -/
def decode_row (ocs : Option (List Char)) (row : List Int) : Except PyExc Char :=
  match np_argmax row with
  | .error e => .error e
  | .ok oh =>
    match ocs with
    | none => .error .typeError
    | some cs =>
      match cs.get? oh with
      | some c => .ok c
      | none => .error .indexError

/-- Body of the outer loop of `OneHotFeaturizer.untransform`: build `s`
character by character over the rows of `z[i]`, then `z1.append([s.strip()])`. -/
def decode_matrix (ocs : Option (List Char)) (m : List (List Int)) :
    Except PyExc (List (List Char)) :=
  match mapExcept (decode_row ocs) m with
  | .error e => .error e
  | .ok chars => .ok [pyStrip chars]

/-- `OneHotFeaturizer.untransform`: for each matrix `z[i]`, for each row
`z[i][j]`, take `oh = np.argmax(z[i][j])` and append `self.charset[oh]` to
`s`; then append `[s.strip()]` to the result list `z1`. -/
def untransform (ocs : Option (List Char)) (z : List (List (List Int))) :
    Except PyExc (List (List (List Char))) :=
  mapExcept (decode_matrix ocs) z

/-- Proof-side abbreviation: the one-hot row produced for a character that
occurs in the charset. -/
def encChar (cs : List Char) (c : Char) : List Int :=
  one_hot_array cs ((pyIndex cs c).getD 0)

/-! ### Helper lemmas about `mapExcept` -/

theorem mapExcept_cons (f : α → Except PyExc β) (a : α) (l : List α) :
    mapExcept f (a :: l) =
      match f a with
      | .error e => .error e
      | .ok b =>
        match mapExcept f l with
        | .error e => .error e
        | .ok bs => .ok (b :: bs) := rfl

/-- When `f` succeeds on every element, `mapExcept` returns the mapped list. -/
theorem mapExcept_ok_map (f : α → Except PyExc β) (g : α → β) (l : List α)
    (h : ∀ a ∈ l, f a = .ok (g a)) : mapExcept f l = .ok (l.map g) := by
  induction l with
  | nil => rfl
  | cons a t ih =>
    have ha : f a = .ok (g a) := h a (List.mem_cons_self a t)
    have ht : mapExcept f t = .ok (t.map g) :=
      ih (fun x hx => h x (List.mem_cons_of_mem a hx))
    simp [mapExcept_cons, ha, ht]

/-- Inverse form: when `f` undoes `e` on every element of `l`, mapping the
encoded list back succeeds with `l` itself. -/
theorem mapExcept_map_eq_ok (f : β → Except PyExc α) (e : α → β) (l : List α)
    (h : ∀ a ∈ l, f (e a) = .ok a) : mapExcept f (l.map e) = .ok l := by
  induction l with
  | nil => rfl
  | cons a t ih =>
    have ha : f (e a) = .ok a := h a (List.mem_cons_self a t)
    have ht : mapExcept f (t.map e) = .ok t :=
      ih (fun x hx => h x (List.mem_cons_of_mem a hx))
    simp [List.map_cons, mapExcept_cons, ha, ht]

/-- A successful `mapExcept` means `f` succeeded on every element. -/
theorem mapExcept_ok_forall (f : α → Except PyExc β) (l : List α) (bs : List β)
    (h : mapExcept f l = .ok bs) : ∀ a ∈ l, ∃ b, f a = .ok b := by
  induction l generalizing bs with
  | nil => intro a ha; cases ha
  | cons a t ih =>
    intro x hx
    rw [mapExcept_cons] at h
    cases hfa : f a with
    | error e => rw [hfa] at h; cases h
    | ok b =>
      rw [hfa] at h
      cases hft : mapExcept f t with
      | error e => rw [hft] at h; cases h
      | ok bs2 =>
        cases List.mem_cons.mp hx with
        | inl hxa => exact ⟨b, hxa ▸ hfa⟩
        | inr hxt => exact ih bs2 hft x hxt

/-- When every element either succeeds or fails with the same exception
`e0`, the whole `mapExcept` either succeeds or fails with `e0`. -/
theorem mapExcept_classify (f : α → Except PyExc β) (l : List α) (e0 : PyExc)
    (h : ∀ a ∈ l, (∃ b, f a = .ok b) ∨ f a = .error e0) :
    (∃ bs, mapExcept f l = .ok bs) ∨ mapExcept f l = .error e0 := by
  induction l with
  | nil => exact Or.inl ⟨[], rfl⟩
  | cons a t ih =>
    cases h a (List.mem_cons_self a t) with
    | inr herr => right; simp [mapExcept_cons, herr]
    | inl hok =>
      obtain ⟨b, hb⟩ := hok
      cases ih (fun x hx => h x (List.mem_cons_of_mem a hx)) with
      | inl hoks =>
        obtain ⟨bs, hbs⟩ := hoks
        exact Or.inl ⟨b :: bs, by simp [mapExcept_cons, hb, hbs]⟩
      | inr herr2 => right; simp [mapExcept_cons, hb, herr2]

/-- When `f` succeeds on every element, `mapExcept` succeeds. -/
theorem mapExcept_ok_of_forall (f : α → Except PyExc β) (l : List α)
    (h : ∀ a ∈ l, ∃ b, f a = .ok b) : ∃ bs, mapExcept f l = .ok bs := by
  induction l with
  | nil => exact ⟨[], rfl⟩
  | cons a t ih =>
    obtain ⟨b, hb⟩ := h a (List.mem_cons_self a t)
    obtain ⟨bs, hbs⟩ := ih (fun x hx => h x (List.mem_cons_of_mem a hx))
    exact ⟨b :: bs, by simp [mapExcept_cons, hb, hbs]⟩

/-! ### Helper lemmas about `pyIndex` -/

theorem pyIndex_of_mem {cs : List Char} {c : Char} (h : c ∈ cs) :
    ∃ i, pyIndex cs c = some i := by
  induction cs with
  | nil => cases h
  | cons a rest ih =>
    by_cases hac : a = c
    · exact ⟨0, by simp [pyIndex, hac]⟩
    · have hc : c ∈ rest := by
        cases List.mem_cons.mp h with
        | inl h1 => exact absurd h1.symm hac
        | inr h2 => exact h2
      obtain ⟨j, hj⟩ := ih hc
      exact ⟨j + 1, by simp [pyIndex, hac, hj]⟩

theorem pyIndex_of_not_mem {cs : List Char} {c : Char} (h : c ∉ cs) :
    pyIndex cs c = none := by
  induction cs with
  | nil => rfl
  | cons a rest ih =>
    have hac : ¬(a = c) := fun he => h (he ▸ List.mem_cons_self a rest)
    have hr : c ∉ rest := fun hm => h (List.mem_cons_of_mem a hm)
    simp [pyIndex, hac, ih hr]

theorem pyIndex_some {cs : List Char} {c : Char} {i : Nat}
    (h : pyIndex cs c = some i) : i < cs.length ∧ cs.get? i = some c := by
  induction cs generalizing i with
  | nil => cases h
  | cons a rest ih =>
    by_cases hac : a = c
    · simp [pyIndex, hac] at h
      subst h
      simp [hac]
    · simp [pyIndex, hac] at h
      obtain ⟨j, hj, hij⟩ := h
      obtain ⟨hlt, hget⟩ := ih hj
      subst hij
      constructor
      · simpa using Nat.succ_lt_succ hlt
      · simpa using hget

/-! ### Helper lemmas about `pad_smile` -/

theorem pad_smile_length_of_le {n : Nat} {s : List Char} (h : s.length ≤ n) :
    (pad_smile n s).length = n := by
  simp [pad_smile]
  omega

theorem pad_smile_of_ge {n : Nat} {s : List Char} (h : n ≤ s.length) :
    pad_smile n s = s := by
  simp [pad_smile, Nat.sub_eq_zero_of_le h]

theorem mem_of_mem_pad_smile {n : Nat} {s : List Char} {c : Char}
    (h : c ∈ pad_smile n s) : c ∈ s ∨ c = ' ' := by
  cases List.mem_append.mp h with
  | inl h1 => exact Or.inl h1
  | inr h2 => exact Or.inr (List.eq_of_mem_replicate h2)

theorem mem_pad_smile_of_mem {n : Nat} {s : List Char} {c : Char}
    (h : c ∈ s) : c ∈ pad_smile n s :=
  List.mem_append.mpr (Or.inl h)

/-! ### Helper lemmas about `one_hot_array` -/

theorem one_hot_array_length (cs : List Char) (i : Nat) :
    (one_hot_array cs i).length = cs.length := by
  simp [one_hot_array]

theorem one_hot_array_getD (cs : List Char) (i j : Nat) (hj : j < cs.length) :
    (one_hot_array cs i).getD j 0 = if j = i then 1 else 0 := by
  have hj2 : j < (one_hot_array cs i).length := by
    rw [one_hot_array_length]; exact hj
  rw [List.getD_eq_getElem _ _ hj2]
  simp [one_hot_array]

theorem sum_range_ite (n i : Nat) :
    ((List.range n).map (fun ix => if ix = i then (1 : Int) else 0)).sum =
      if i < n then 1 else 0 := by
  induction n with
  | zero => simp
  | succ m ih =>
    rw [List.range_succ, List.map_append, List.sum_append, ih]
    by_cases him : i < m
    · have hne : ¬(m = i) := by omega
      have : i < m + 1 := by omega
      simp [him, hne, this]
    · by_cases heq : i = m
      · subst heq
        simp [him]
      · have hne : ¬(m = i) := fun h => heq h.symm
        have : ¬(i < m + 1) := by omega
        simp [him, hne, this]

theorem one_hot_array_sum (cs : List Char) (i : Nat) (hi : i < cs.length) :
    (one_hot_array cs i).sum = 1 := by
  rw [one_hot_array, sum_range_ite]
  simp [hi]

/-! ### Helper lemmas about `argmaxIdx` -/

theorem exists_max (l : List Int) (h : l ≠ []) : ∃ x ∈ l, ∀ y ∈ l, y ≤ x := by
  induction l with
  | nil => exact absurd rfl h
  | cons a t ih =>
    cases t with
    | nil => exact ⟨a, by simp⟩
    | cons b u =>
      obtain ⟨x, hx, hmax⟩ := ih (by simp)
      by_cases hax : a ≤ x
      · refine ⟨x, List.mem_cons_of_mem a hx, ?_⟩
        intro y hy
        cases List.mem_cons.mp hy with
        | inl h1 => exact h1 ▸ hax
        | inr h2 => exact hmax y h2
      · push_neg at hax
        refine ⟨a, List.mem_cons_self a _, ?_⟩
        intro y hy
        cases List.mem_cons.mp hy with
        | inl h1 => exact le_of_eq h1
        | inr h2 => exact le_trans (hmax y h2) (le_of_lt hax)

theorem argmaxIdx_lt_length {l : List Int} (h : l ≠ []) : argmaxIdx l < l.length := by
  obtain ⟨x, hx, hmax⟩ := exists_max l h
  apply List.findIdx_lt_length_of_exists
  refine ⟨x, hx, ?_⟩
  simp only [List.all_eq_true, decide_eq_true_eq]
  exact hmax

theorem argmaxIdx_is_max {l : List Int} (h : l ≠ []) {k : Nat} (hk : k < l.length) :
    l.getD k 0 ≤ l.getD (argmaxIdx l) 0 := by
  have hlt : argmaxIdx l < l.length := argmaxIdx_lt_length h
  have hp : (l.all (fun y => decide (y ≤ l[argmaxIdx l]))) = true :=
    List.findIdx_getElem (w := hlt)
  simp only [List.all_eq_true, decide_eq_true_eq] at hp
  rw [List.getD_eq_getElem _ _ hk, List.getD_eq_getElem _ _ hlt]
  exact hp _ (List.getElem_mem hk)

theorem argmaxIdx_le_of_max {l : List Int} {k : Nat} (hk : k < l.length)
    (hmax : ∀ j, j < l.length → l.getD j 0 ≤ l.getD k 0) : argmaxIdx l ≤ k := by
  by_contra hcon
  push_neg at hcon
  have hp := List.not_of_lt_findIdx
    (p := fun x => l.all (fun y => decide (y ≤ x))) (i := k) hcon
  have htrue : (l.all (fun y => decide (y ≤ l[k]))) = true := by
    simp only [List.all_eq_true, decide_eq_true_eq]
    intro y hy
    obtain ⟨j, hj, hyj⟩ := List.mem_iff_getElem.mp hy
    have h2 := hmax j hj
    rw [List.getD_eq_getElem _ _ hj, List.getD_eq_getElem _ _ hk] at h2
    exact hyj ▸ h2
  rw [htrue] at hp
  cases hp

theorem argmaxIdx_one_hot (cs : List Char) (i : Nat) (hi : i < cs.length) :
    argmaxIdx (one_hot_array cs i) = i := by
  have hlen : (one_hot_array cs i).length = cs.length := one_hot_array_length cs i
  have hine : i < (one_hot_array cs i).length := by rw [hlen]; exact hi
  have hne : one_hot_array cs i ≠ [] := by
    intro hcon
    rw [hcon] at hine
    cases hine
  apply le_antisymm
  · apply argmaxIdx_le_of_max hine
    intro j hj
    rw [one_hot_array_getD cs i j (hlen ▸ hj), one_hot_array_getD cs i i hi]
    by_cases hji : j = i <;> simp [hji]
  · by_contra hcon
    push_neg at hcon
    have hamlt : argmaxIdx (one_hot_array cs i) < (one_hot_array cs i).length :=
      argmaxIdx_lt_length hne
    have hmax := argmaxIdx_is_max hne hine
    rw [one_hot_array_getD cs i i hi,
        one_hot_array_getD cs i (argmaxIdx (one_hot_array cs i)) (hlen ▸ hamlt)] at hmax
    have hne2 : ¬(argmaxIdx (one_hot_array cs i) = i) := Nat.ne_of_lt hcon
    simp [hne2] at hmax

/-! ### Helper lemmas about `pyStrip` -/

theorem dropWhile_replicate_append (m : Nat) (t : List Char) :
    (List.replicate m ' ' ++ t).dropWhile isPySpace = t.dropWhile isPySpace := by
  induction m with
  | zero => simp
  | succ k ih =>
    rw [List.replicate_succ, List.cons_append, List.dropWhile_cons]
    simp only [show isPySpace ' ' = true from rfl, if_pos]
    exact ih

theorem dropWhile_eq_self_of_pyStrip {s : List Char} (h : pyStrip s = s) :
    s.dropWhile isPySpace = s := by
  have h1 : (s.dropWhile isPySpace).length ≤ s.length := (List.dropWhile_sublist _).length_le
  have h2 : (pyStrip s).length ≤ (s.dropWhile isPySpace).length := by
    rw [pyStrip]
    rw [List.length_reverse]
    calc ((s.dropWhile isPySpace).reverse.dropWhile isPySpace).length
        ≤ (s.dropWhile isPySpace).reverse.length := (List.dropWhile_sublist _).length_le
      _ = (s.dropWhile isPySpace).length := List.length_reverse _
  rw [h] at h2
  exact ((s.dropWhile_suffix isPySpace).sublist).eq_of_length (le_antisymm h1 h2)

theorem pyStrip_append_replicate {s : List Char} (m : Nat) (h : pyStrip s = s) :
    pyStrip (s ++ List.replicate m ' ') = s := by
  cases s with
  | nil =>
    simp only [List.nil_append]
    have h1 : (List.replicate m ' ').dropWhile isPySpace = [] := by
      have h2 := dropWhile_replicate_append m ([] : List Char)
      simpa using h2
    rw [pyStrip, h1]
    rfl
  | cons a t =>
    have hdw : (a :: t).dropWhile isPySpace = a :: t := dropWhile_eq_self_of_pyStrip h
    have hna : isPySpace a = false := by
      by_contra hcon
      rw [Bool.not_eq_false] at hcon
      rw [List.dropWhile_cons, if_pos hcon] at hdw
      have hlen := (List.dropWhile_sublist (l := t) isPySpace).length_le
      rw [hdw] at hlen
      simp at hlen
    have hL : ((a :: t) ++ List.replicate m ' ').dropWhile isPySpace
        = (a :: t) ++ List.replicate m ' ' := by
      rw [List.cons_append, List.dropWhile_cons]
      simp [hna]
    rw [pyStrip, hL, List.reverse_append, List.reverse_replicate,
        dropWhile_replicate_append]
    have h2 := h
    rw [pyStrip, hdw] at h2
    exact h2

theorem pyStrip_pad_smile {n : Nat} {s : List Char} (h : pyStrip s = s) :
    pyStrip (pad_smile n s) = s :=
  pyStrip_append_replicate _ h

/-! ### Bridge lemmas between encoding and decoding -/

/-- Encoding succeeds and yields one one-hot row per padded character when
every padded character occurs in the charset. -/
theorem one_hot_encoded_ok {cs : List Char} {n : Nat} {s : List Char}
    (h : ∀ c ∈ pad_smile n s, c ∈ cs) :
    one_hot_encoded cs n s = .ok ((pad_smile n s).map (encChar cs)) := by
  rw [one_hot_encoded]
  apply mapExcept_ok_map
  intro c hc
  obtain ⟨i, hi⟩ := pyIndex_of_mem (h c hc)
  simp [one_hot_index, encChar, hi]

/-- Decoding the one-hot row of a charset character returns that character. -/
theorem decode_row_encChar {cs : List Char} {c : Char} (h : c ∈ cs) :
    decode_row (some cs) (encChar cs c) = .ok c := by
  obtain ⟨i, hi⟩ := pyIndex_of_mem h
  obtain ⟨hlt, hget⟩ := pyIndex_some hi
  have henc : encChar cs c = one_hot_array cs i := by simp [encChar, hi]
  have hlen : (one_hot_array cs i).length = cs.length := one_hot_array_length cs i
  have hne : (one_hot_array cs i).isEmpty = false := by
    cases harr : one_hot_array cs i with
    | nil =>
      rw [harr] at hlen
      simp at hlen
      omega
    | cons x xs => rfl
  rw [henc, decode_row, np_argmax]
  rw [hne]
  simp only [Bool.false_eq_true, if_false]
  rw [argmaxIdx_one_hot cs i hlt, hget]

/-- Decoding the matrix of one-hot rows of a list of charset characters
returns the stripped character list, in a singleton list. -/
theorem decode_matrix_encoded {cs : List Char} {l : List Char}
    (h : ∀ c ∈ l, c ∈ cs) :
    decode_matrix (some cs) (l.map (encChar cs)) = .ok [pyStrip l] := by
  rw [decode_matrix, mapExcept_map_eq_ok (decode_row (some cs)) (encChar cs) l
    (fun c hc => decode_row_encChar (h c hc))]

/-- `one_hot_index` either succeeds or raises `ValueError`. -/
theorem one_hot_index_classify (cs : List Char) (c : Char) :
    (∃ i, one_hot_index cs c = .ok i) ∨ one_hot_index cs c = .error .valueError := by
  cases h : pyIndex cs c with
  | some i => exact Or.inl ⟨i, by simp [one_hot_index, h]⟩
  | none => exact Or.inr (by simp [one_hot_index, h])

/-- `one_hot_encoded` either succeeds or raises `ValueError`. -/
theorem one_hot_encoded_classify (cs : List Char) (n : Nat) (s : List Char) :
    (∃ m, one_hot_encoded cs n s = .ok m) ∨
      one_hot_encoded cs n s = .error .valueError := by
  apply mapExcept_classify
  intro c _
  cases h : pyIndex cs c with
  | some i => exact Or.inl ⟨one_hot_array cs i, by simp [one_hot_index, h]⟩
  | none => exact Or.inr (by simp [one_hot_index, h])

/-- Encoding a string containing a character outside the charset raises
`ValueError` (Python `list.index` on a missing element). -/
theorem one_hot_encoded_error {cs : List Char} {n : Nat} {s : List Char}
    {c : Char} (hc : c ∈ s) (hnc : c ∉ cs) :
    one_hot_encoded cs n s = .error .valueError := by
  cases one_hot_encoded_classify cs n s with
  | inr h => exact h
  | inl h =>
    obtain ⟨m, hm⟩ := h
    exfalso
    rw [one_hot_encoded] at hm
    obtain ⟨b, hb⟩ :=
      mapExcept_ok_forall _ _ _ hm c (mem_pad_smile_of_mem hc)
    rw [show one_hot_index cs c = .error .valueError by
      simp [one_hot_index, pyIndex_of_not_mem hnc]] at hb
    cases hb

/-- `featurize` on an object whose charset is already set: the charset is
kept and each string is encoded with it. -/
theorem featurize_some (cs : List Char) (n : Nat) (smiles : List (List Char)) :
    featurize ⟨some cs, n⟩ smiles =
      (⟨some cs, n⟩, mapExcept (one_hot_encoded cs n) smiles) := rfl

/-- `featurize` on an object whose charset is unset: the charset is derived
from the corpus, stored, and used for encoding. -/
theorem featurize_none (n : Nat) (smiles : List (List Char)) :
    featurize ⟨none, n⟩ smiles =
      (⟨some (_create_charset smiles), n⟩,
        mapExcept (one_hot_encoded (_create_charset smiles) n) smiles) := rfl

/-! ### Helper lemmas about `_create_charset` -/

theorem mem_create_charset_tail {smiles : List (List Char)} {c : Char} :
    c ∈ (_create_charset smiles).tail ↔ c ∈ smiles.flatten := by
  rw [_create_charset]
  show c ∈ (smiles.flatten.dedup).insertionSort (· ≤ ·) ↔ _
  rw [(List.perm_insertionSort (· ≤ ·) smiles.flatten.dedup).mem_iff]
  exact List.mem_dedup

theorem create_charset_eq_of_mem_iff (A B : List (List Char))
    (h : ∀ c : Char, c ∈ A.flatten ↔ c ∈ B.flatten) :
    _create_charset A = _create_charset B := by
  rw [_create_charset, _create_charset]
  congr 1
  have pa := List.perm_insertionSort (· ≤ ·) A.flatten.dedup
  have pb := List.perm_insertionSort (· ≤ ·) B.flatten.dedup
  have hd : List.Perm A.flatten.dedup B.flatten.dedup := by
    rw [List.perm_ext_iff_of_nodup (List.nodup_dedup _) (List.nodup_dedup _)]
    intro a
    rw [List.mem_dedup, List.mem_dedup]
    exact h a
  exact List.eq_of_perm_of_sorted (pa.trans (hd.trans pb.symm))
    (List.sorted_insertionSort _ _) (List.sorted_insertionSort _ _)

/-- Retrieval of the element a successful `get?` returns, as a `getD`. -/
theorem get_opt_getD (cs : List Char) (i : Nat) (d : Char) (h : i < cs.length) :
    cs.get? i = some (cs.getD i d) := by
  rw [List.get?_eq_getElem?, List.getElem?_eq_getElem h, List.getD_eq_getElem _ _ h]

/-- Decoding a nonempty row whose arg-max index is within the charset
returns the charset character at that index. -/
theorem decode_row_ok {cs : List Char} {r : List Int} (hne : r ≠ [])
    (hlt : argmaxIdx r < cs.length) :
    decode_row (some cs) r = .ok (cs.getD (argmaxIdx r) ' ') := by
  have hisEmpty : r.isEmpty = false := by
    cases r with
    | nil => exact absurd rfl hne
    | cons a t => rfl
  rw [decode_row, np_argmax, hisEmpty]
  simp only [Bool.false_eq_true, if_false]
  rw [get_opt_getD cs _ ' ' hlt]

/-- A failed `mapExcept` exposes an element on which `f` fails with the same
exception. -/
theorem mapExcept_error_mem (f : α → Except PyExc β) (l : List α) (e : PyExc)
    (h : mapExcept f l = .error e) : ∃ a ∈ l, f a = .error e := by
  induction l with
  | nil => cases h
  | cons a t ih =>
    rw [mapExcept_cons] at h
    cases hfa : f a with
    | error e2 =>
      rw [hfa] at h
      cases h
      exact ⟨a, List.mem_cons_self a t, hfa⟩
    | ok b =>
      rw [hfa] at h
      cases hft : mapExcept f t with
      | error e2 =>
        rw [hft] at h
        cases h
        obtain ⟨x, hx, hfx⟩ := ih hft
        exact ⟨x, List.mem_cons_of_mem a hx, hfx⟩
      | ok bs =>
        rw [hft] at h
        cases h

/-- A successful `decode_matrix` means the row loop succeeded. -/
theorem decode_matrix_ok_inner {ocs : Option (List Char)} {m : List (List Int)}
    {b : List (List Char)} (h : decode_matrix ocs m = .ok b) :
    ∃ chars, mapExcept (decode_row ocs) m = .ok chars := by
  rw [decode_matrix] at h
  cases h2 : mapExcept (decode_row ocs) m with
  | error e =>
    rw [h2] at h
    cases h
  | ok chars => exact ⟨chars, rfl⟩

/-- A failed `decode_matrix` means the row loop failed with that exception. -/
theorem decode_matrix_error_inner {ocs : Option (List Char)} {m : List (List Int)}
    {e : PyExc} (h : decode_matrix ocs m = .error e) :
    mapExcept (decode_row ocs) m = .error e := by
  rw [decode_matrix] at h
  cases h2 : mapExcept (decode_row ocs) m with
  | error e2 =>
    rw [h2] at h
    cases h
    rfl
  | ok chars =>
    rw [h2] at h
    cases h

/-- Complete classification of `decode_row` with a set charset: an empty row
raises `ValueError` from `np.argmax`; a nonempty row whose arg-max index is
inside the charset decodes to the charset character there; a nonempty row
whose arg-max index is outside the charset raises `IndexError`. -/
theorem decode_row_classify (cs : List Char) (r : List Int) :
    (r = [] ∧ decode_row (some cs) r = .error .valueError) ∨
    (r ≠ [] ∧ argmaxIdx r < cs.length ∧
      decode_row (some cs) r = .ok (cs.getD (argmaxIdx r) ' ')) ∨
    (r ≠ [] ∧ cs.length ≤ argmaxIdx r ∧
      decode_row (some cs) r = .error .indexError) := by
  cases r with
  | nil => exact Or.inl ⟨rfl, rfl⟩
  | cons a t =>
    have hne : a :: t ≠ [] := by simp
    by_cases hlt : argmaxIdx (a :: t) < cs.length
    · exact Or.inr (Or.inl ⟨hne, hlt, decode_row_ok hne hlt⟩)
    · push_neg at hlt
      refine Or.inr (Or.inr ⟨hne, hlt, ?_⟩)
      have hnone : cs.get? (argmaxIdx (a :: t)) = none := List.get?_eq_none.mpr hlt
      rw [decode_row, np_argmax]
      simp only [List.isEmpty_cons, Bool.false_eq_true, if_false]
      rw [hnone]

/-- Complete classification of `decode_row` with an unset charset: an empty
row raises `ValueError` from `np.argmax` (evaluated first); a nonempty row
raises `TypeError` from subscripting `None`. -/
theorem decode_row_none_classify (r : List Int) :
    (r = [] ∧ decode_row none r = .error .valueError) ∨
    (r ≠ [] ∧ decode_row none r = .error .typeError) := by
  cases r with
  | nil => exact Or.inl ⟨rfl, rfl⟩
  | cons a t =>
    refine Or.inr ⟨by simp, ?_⟩
    rw [decode_row, np_argmax]
    simp only [List.isEmpty_cons, Bool.false_eq_true, if_false]

/-! ### Claim theorems -/

/-- C1 counterexample: with charset `[' ', 'C']` and padLength 2, the string
`" C"` is built only from charset characters, has length `≤` padLength and no
trailing spaces, yet decoding the encoding of `[" C"]` yields the string
`"C"`, not `" C"` — `str.strip()` removes the leading space as well. -/
theorem C1_counterexample :
    (featurize ⟨some [' ', 'C'], 2⟩ [[' ', 'C']]).2 = .ok [[[1, 0], [0, 1]]] ∧
    untransform (some [' ', 'C']) [[[1, 0], [0, 1]]] = .ok [[['C']]] ∧
    (['C'] : List Char) ≠ [' ', 'C'] := by decide

/-- C1 (amended): for every string `s` built only from charset characters,
with the padding space in the charset, `s.length ≤ padLength`, and no leading
or trailing whitespace (`pyStrip s = s`), decoding the result of encoding the
one-element batch `[s]` yields `[[s]]` — the one-element batch whose decoded
string is exactly `s`, wrapped in the singleton list `untransform` appends
per matrix. -/
theorem C1_round_trip (cs : List Char) (n : Nat) (s : List Char)
    (hmem : ∀ c ∈ s, c ∈ cs) (hsp : ' ' ∈ cs) (hlen : s.length ≤ n)
    (hstrip : pyStrip s = s) :
    ∃ m, (featurize ⟨some cs, n⟩ [s]).2 = .ok [m] ∧
      untransform (some cs) [m] = .ok [[s]] := by
  have hpadmem : ∀ c ∈ pad_smile n s, c ∈ cs := by
    intro c hc
    cases mem_of_mem_pad_smile hc with
    | inl h1 => exact hmem c h1
    | inr h2 => exact h2 ▸ hsp
  refine ⟨(pad_smile n s).map (encChar cs), ?_, ?_⟩
  · rw [featurize_some]
    show mapExcept (one_hot_encoded cs n) [s] = _
    rw [mapExcept_cons, one_hot_encoded_ok hpadmem]
    rfl
  · rw [untransform, mapExcept_cons, decode_matrix_encoded hpadmem,
      pyStrip_pad_smile hstrip]
    rfl

theorem C1_round_trip_witness :
    ∃ m, (featurize ⟨some [' ', 'C'], 3⟩ [['C']]).2 = .ok [m] ∧
      untransform (some [' ', 'C']) [m] = .ok [[['C']]] :=
  C1_round_trip [' ', 'C'] 3 ['C'] (by decide) (by decide) (by decide) (by decide)

/-- C2 counterexample: with charset `[' ', 'C']` and padLength 1, the string
`"CC"` (all characters in the charset) encodes to a matrix with 2 rows, not
padLength = 1 rows — `pad_smile` never truncates. -/
theorem C2_counterexample :
    one_hot_encoded [' ', 'C'] 1 ['C', 'C'] = .ok [[0, 1], [0, 1]] ∧
    ([[0, 1], [0, 1]] : List (List Int)).length ≠ 1 := by decide

/-- C2 (amended): for every input string whose characters are all in the
charset, whose length is at most padLength, and with the padding space in
the charset, the encoded matrix has exactly padLength rows, each row has
exactly `|charset|` columns, and each row sums to exactly 1. -/
theorem C2_shape (cs : List Char) (n : Nat) (s : List Char)
    (hmem : ∀ c ∈ s, c ∈ cs) (hsp : ' ' ∈ cs) (hlen : s.length ≤ n) :
    ∃ m, one_hot_encoded cs n s = .ok m ∧ m.length = n ∧
      ∀ row ∈ m, row.length = cs.length ∧ row.sum = 1 := by
  have hpadmem : ∀ c ∈ pad_smile n s, c ∈ cs := by
    intro c hc
    cases mem_of_mem_pad_smile hc with
    | inl h1 => exact hmem c h1
    | inr h2 => exact h2 ▸ hsp
  refine ⟨(pad_smile n s).map (encChar cs), one_hot_encoded_ok hpadmem, ?_, ?_⟩
  · rw [List.length_map, pad_smile_length_of_le hlen]
  · intro row hrow
    rw [List.mem_map] at hrow
    obtain ⟨c, hc, hrow⟩ := hrow
    obtain ⟨i, hi⟩ := pyIndex_of_mem (hpadmem c hc)
    obtain ⟨hlt, _⟩ := pyIndex_some hi
    have hr : row = one_hot_array cs i := by
      rw [← hrow]
      simp [encChar, hi]
    rw [hr]
    exact ⟨one_hot_array_length cs i, one_hot_array_sum cs i hlt⟩

theorem C2_shape_witness :
    ∃ m, one_hot_encoded [' ', 'C'] 2 ['C'] = .ok m ∧ m.length = 2 ∧
      ∀ row ∈ m, row.length = ([' ', 'C'] : List Char).length ∧ row.sum = 1 :=
  C2_shape [' ', 'C'] 2 ['C'] (by decide) (by decide) (by decide)

/-- C3 counterexample: encoding `"C"` with charset `[' ']` fails with
`ValueError` (the exception `list.index` raises for a missing element),
which is not a `LookupError` in Python's exception hierarchy. -/
theorem C3_counterexample :
    one_hot_encoded [' '] 1 ['C'] = .error .valueError ∧
    (featurize ⟨some [' '], 1⟩ [['C']]).2 = .error .valueError ∧
    isLookupError .valueError = false := by decide

/-- C3 (amended): for every input string containing at least one character
absent from the active charset, encoding that string fails with a
`ValueError` (`list.index`: character not found in the list — not a
`LookupError`), the error propagates through `featurize` to the caller for
any batch containing the string, and no partial encoded output is produced
(the result is only the error). -/
theorem C3_unknown_char (cs : List Char) (n : Nat) (s : List Char) (c : Char)
    (hc : c ∈ s) (hnc : c ∉ cs) (pre post : List (List Char)) :
    one_hot_encoded cs n s = .error .valueError ∧
    (featurize ⟨some cs, n⟩ (pre ++ s :: post)).2 = .error .valueError := by
  have h1 : one_hot_encoded cs n s = .error .valueError :=
    one_hot_encoded_error hc hnc
  refine ⟨h1, ?_⟩
  rw [featurize_some]
  show mapExcept (one_hot_encoded cs n) (pre ++ s :: post) = _
  cases mapExcept_classify (one_hot_encoded cs n) (pre ++ s :: post) .valueError
      (fun t _ => one_hot_encoded_classify cs n t) with
  | inr h => exact h
  | inl h =>
    obtain ⟨bs, hbs⟩ := h
    exfalso
    obtain ⟨b, hb⟩ := mapExcept_ok_forall _ _ _ hbs s (by simp)
    rw [h1] at hb
    cases hb

theorem C3_unknown_char_witness :
    one_hot_encoded [' '] 1 ['C'] = .error .valueError ∧
    (featurize ⟨some [' '], 1⟩ ([] ++ ['C'] :: [])).2 = .error .valueError :=
  C3_unknown_char [' '] 1 ['C'] 'C' (by decide) (by decide) [] []

/-- C4 counterexample: for the corpus `[" "]` (a single one-space string),
`_create_charset` prepends the padding space to a sorted set that already
contains a space, yielding `[' ', ' ']` — not deduplicated. -/
theorem C4_counterexample :
    _create_charset [[' ']] = [' ', ' '] ∧
    ¬ ([' ', ' '] : List Char).Nodup := by
  refine ⟨by decide, by decide⟩

/-- C4 (amended): for every corpus whose strings contain no space character,
the charset builder yields output with the padding space fixed at index 0,
all elements unique, the part after index 0 strictly sorted, and the result
depends only on which characters occur in the corpus (element order and
duplicates are irrelevant; building twice from the same character set gives
identical output).  When the corpus itself contains a space, the space
appears twice (at index 0 and among the sorted characters). -/
theorem C4_charset_deterministic (smiles : List (List Char))
    (hns : ∀ s ∈ smiles, ' ' ∉ s) :
    (_create_charset smiles).head? = some ' ' ∧
    (_create_charset smiles).Nodup ∧
    List.Sorted (· < ·) (_create_charset smiles).tail ∧
    ∀ smiles2 : List (List Char),
      (∀ c : Char, c ∈ smiles2.flatten ↔ c ∈ smiles.flatten) →
      _create_charset smiles2 = _create_charset smiles := by
  have hsorted : List.Sorted (· ≤ ·) ((smiles.flatten.dedup).insertionSort (· ≤ ·)) :=
    List.sorted_insertionSort _ _
  have hnodup : ((smiles.flatten.dedup).insertionSort (· ≤ ·)).Nodup :=
    ((List.perm_insertionSort (· ≤ ·) smiles.flatten.dedup).nodup_iff).mpr
      (List.nodup_dedup _)
  refine ⟨rfl, ?_, ?_, ?_⟩
  · rw [_create_charset, List.nodup_cons]
    refine ⟨?_, hnodup⟩
    intro hmem
    rw [show ((smiles.flatten.dedup).insertionSort (· ≤ ·)) =
        (_create_charset smiles).tail from rfl, mem_create_charset_tail,
      List.mem_flatten] at hmem
    obtain ⟨s, hs, hsp⟩ := hmem
    exact hns s hs hsp
  · rw [_create_charset]
    exact hsorted.lt_of_le hnodup
  · intro smiles2 h2
    exact create_charset_eq_of_mem_iff smiles2 smiles h2

theorem C4_charset_deterministic_witness :
    (_create_charset [['C', 'N']]).head? = some ' ' ∧
    (_create_charset [['C', 'N']]).Nodup ∧
    List.Sorted (· < ·) (_create_charset [['C', 'N']]).tail ∧
    ∀ smiles2 : List (List Char),
      (∀ c : Char, c ∈ smiles2.flatten ↔ c ∈ ([['C', 'N']] : List (List Char)).flatten) →
      _create_charset smiles2 = _create_charset [['C', 'N']] :=
  C4_charset_deterministic [['C', 'N']] (by decide)

/-- C5: an encoder constructed without an explicit charset derives the
charset from the first corpus `A` on the first `featurize` call and caches
it; a second call with any corpus `B` leaves the charset field unchanged and
encodes `B` with the charset derived from `A`. -/
theorem C5_vocab_caching (n : Nat) (A B : List (List Char)) :
    (featurize ⟨none, n⟩ A).1.charset = some (_create_charset A) ∧
    (featurize (featurize ⟨none, n⟩ A).1 B).1.charset =
      (featurize ⟨none, n⟩ A).1.charset ∧
    (featurize (featurize ⟨none, n⟩ A).1 B).2 =
      mapExcept (one_hot_encoded (_create_charset A) n) B :=
  ⟨rfl, rfl, rfl⟩

/-- C6 counterexample: calling `featurize` with an empty corpus and no
explicit charset does not fail at all — it derives the charset `[' ']` and
returns an empty batch successfully. -/
theorem C6_counterexample :
    (featurize ⟨none, 5⟩ []).2 = .ok [] ∧
    (featurize ⟨none, 5⟩ []).1.charset = some [' '] := by
  refine ⟨rfl, rfl⟩

/-- C6 (amended): when the charset is unset, encoding an empty corpus
succeeds (the derived charset is `[' ']` and the batch is empty); decoding
succeeds exactly when every matrix of the input has no rows (each such
matrix decodes to an empty string), and otherwise fails with a `TypeError`
(subscripting the absent charset on a nonempty row) or a `ValueError`
(arg-max of an empty row) — never a dedicated configuration error. -/
theorem C6_unset_charset (n : Nat) :
    (featurize ⟨none, n⟩ []).1.charset = some [' '] ∧
    (featurize ⟨none, n⟩ []).2 = .ok [] ∧
    (∀ z : List (List (List Int)),
      (∃ out, untransform none z = .ok out) ↔ ∀ m ∈ z, m = []) ∧
    (∀ (z : List (List (List Int))) (e : PyExc),
      untransform none z = .error e → e = .typeError ∨ e = .valueError) ∧
    untransform none [[[1]]] = .error .typeError := by
  refine ⟨rfl, rfl, ?_, ?_, by decide⟩
  · intro z
    constructor
    · intro hok m hm
      obtain ⟨out, hout⟩ := hok
      rw [untransform] at hout
      obtain ⟨b, hb⟩ := mapExcept_ok_forall _ _ _ hout m hm
      obtain ⟨chars, hchars⟩ := decode_matrix_ok_inner hb
      cases m with
      | nil => rfl
      | cons r rs =>
        exfalso
        obtain ⟨c, hc⟩ := mapExcept_ok_forall _ _ _ hchars r (List.mem_cons_self r rs)
        cases decode_row_none_classify r with
        | inl h1 =>
          rw [h1.2] at hc
          cases hc
        | inr h2 =>
          rw [h2.2] at hc
          cases hc
    · intro hall
      refine ⟨z.map (fun _ => [[]]), ?_⟩
      rw [untransform]
      apply mapExcept_ok_map
      intro m hm
      rw [hall m hm]
      rfl
  · intro z e he
    rw [untransform] at he
    obtain ⟨m, _, hme⟩ := mapExcept_error_mem _ _ _ he
    obtain ⟨r, _, hre⟩ := mapExcept_error_mem _ _ _ (decode_matrix_error_inner hme)
    cases decode_row_none_classify r with
    | inl h1 =>
      rw [h1.2] at hre
      cases hre
      exact Or.inr rfl
    | inr h2 =>
      rw [h2.2] at hre
      cases hre
      exact Or.inl rfl

theorem C6_unset_charset_witness :
    ∃ out, untransform none [[], []] = .ok out :=
  ((C6_unset_charset 5).2.2.1 [[], []]).mpr (by decide)

/-- C7: with charset `[' ', 'C', 'N', 'O']` and padLength 5, `"CO"` is
padded to `"CO   "` and encoded as the one-hot rows for indices
`[1, 3, 0, 0, 0]`; decoding that matrix returns the string `"CO"` (inside
the singleton list `untransform` appends per matrix) after stripping the
padding. -/
theorem C7_concrete :
    pad_smile 5 ['C', 'O'] = ['C', 'O', ' ', ' ', ' '] ∧
    one_hot_encoded [' ', 'C', 'N', 'O'] 5 ['C', 'O'] =
      .ok [[0, 1, 0, 0], [0, 0, 0, 1], [1, 0, 0, 0], [1, 0, 0, 0], [1, 0, 0, 0]] ∧
    untransform (some [' ', 'C', 'N', 'O'])
      [[[0, 1, 0, 0], [0, 0, 0, 1], [1, 0, 0, 0], [1, 0, 0, 0], [1, 0, 0, 0]]] =
      .ok [[['C', 'O']]] := by
  refine ⟨by decide, by decide, by decide⟩

/-- C8: for every decode input row (of width `|charset|`) containing two or
more equal maximal entries, the decoder's arg-max selects an index that
attains the maximum and is the lowest such index, and `untransform` maps it
through the charset to the decoded character. -/
theorem C8_argmax_tie (cs : List Char) (r : List Int) (i j : Nat)
    (hi : i < r.length) (hj : j < r.length) (hij : i ≠ j)
    (hieq : r.getD i 0 = r.getD j 0)
    (himax : ∀ k, k < r.length → r.getD k 0 ≤ r.getD i 0)
    (hw : r.length = cs.length) :
    argmaxIdx r < r.length ∧
    (∀ k, k < r.length → r.getD k 0 ≤ r.getD (argmaxIdx r) 0) ∧
    (∀ k, k < r.length → (∀ k2, k2 < r.length → r.getD k2 0 ≤ r.getD k 0) →
      argmaxIdx r ≤ k) ∧
    untransform (some cs) [[r]] =
      .ok [[pyStrip [cs.getD (argmaxIdx r) ' ']]] := by
  have hne : r ≠ [] := by
    intro hcon
    rw [hcon] at hi
    cases hi
  have hlt : argmaxIdx r < r.length := argmaxIdx_lt_length hne
  refine ⟨hlt, fun k hk => argmaxIdx_is_max hne hk,
    fun k hk hkmax => argmaxIdx_le_of_max hk hkmax, ?_⟩
  have hdr : decode_row (some cs) r = .ok (cs.getD (argmaxIdx r) ' ') :=
    decode_row_ok hne (hw ▸ hlt)
  rw [untransform, mapExcept_cons]
  rw [show decode_matrix (some cs) [r] =
      .ok [pyStrip [cs.getD (argmaxIdx r) ' ']] by
    rw [decode_matrix, mapExcept_cons, hdr]
    rfl]
  rfl

theorem C8_argmax_tie_witness :
    argmaxIdx [1, 1] < ([1, 1] : List Int).length ∧
    (∀ k, k < ([1, 1] : List Int).length →
      ([1, 1] : List Int).getD k 0 ≤ ([1, 1] : List Int).getD (argmaxIdx [1, 1]) 0) ∧
    (∀ k, k < ([1, 1] : List Int).length →
      (∀ k2, k2 < ([1, 1] : List Int).length →
        ([1, 1] : List Int).getD k2 0 ≤ ([1, 1] : List Int).getD k 0) →
      argmaxIdx [1, 1] ≤ k) ∧
    untransform (some [' ', 'C']) [[[1, 1]]] =
      .ok [[pyStrip [([' ', 'C'] : List Char).getD (argmaxIdx [1, 1]) ' ']]] :=
  C8_argmax_tie [' ', 'C'] [1, 1] 0 1 (by decide) (by decide) (by decide)
    (by decide)
    (by
      intro k hk
      simp only [List.length_cons, List.length_nil] at hk
      match k with
      | 0 => decide
      | 1 => decide
      | m + 2 => omega)
    (by decide)

/-- C9 counterexample: `untransform` performs no shape validation — with
charset `[' ', 'C', 'N', 'O']` (width 4), a 1-row matrix of width 2 decodes
successfully to `"C"` instead of failing fast (the configured pad length is
not even consulted by `untransform`). -/
theorem C9_counterexample :
    untransform (some [' ', 'C', 'N', 'O']) [[[0, 1]]] = .ok [[['C']]] := by
  decide

/-- C9 (amended): decoding performs no shape validation.  It succeeds
exactly when every row of every input matrix is nonempty and its arg-max
index lies inside the charset — irrespective of whether row widths match
`|Charset|` or heights match padLength (`untransform` never consults
`pad_length`) — and otherwise it fails during evaluation rather than by
validation: with an `IndexError` from charset subscripting when a nonempty
row's arg-max index falls outside the charset, or with a `ValueError` from
`np.argmax` on an empty row; no other failure is possible. -/
theorem C9_no_validation :
    (∀ (cs : List Char) (z : List (List (List Int))),
      (∃ out, untransform (some cs) z = .ok out) ↔
        (∀ m ∈ z, ∀ r ∈ m, r ≠ [] ∧ argmaxIdx r < cs.length)) ∧
    (∀ (cs : List Char) (z : List (List (List Int))) (e : PyExc),
      untransform (some cs) z = .error e →
        e = .valueError ∨ e = .indexError) ∧
    untransform (some [' ', 'C', 'N', 'O']) [[[0, 0, 0, 0, 1]]] =
      .error .indexError ∧
    untransform (some [' ', 'C', 'N', 'O']) [[[]]] = .error .valueError := by
  refine ⟨?_, ?_, by decide, by decide⟩
  · intro cs z
    constructor
    · intro hok m hm r hr
      obtain ⟨out, hout⟩ := hok
      rw [untransform] at hout
      obtain ⟨b, hb⟩ := mapExcept_ok_forall _ _ _ hout m hm
      obtain ⟨chars, hchars⟩ := decode_matrix_ok_inner hb
      obtain ⟨c, hc⟩ := mapExcept_ok_forall _ _ _ hchars r hr
      cases decode_row_classify cs r with
      | inl h1 =>
        rw [h1.2] at hc
        cases hc
      | inr h2 =>
        cases h2 with
        | inl h3 => exact ⟨h3.1, h3.2.1⟩
        | inr h4 =>
          rw [h4.2.2] at hc
          cases hc
    · intro h
      rw [untransform]
      apply mapExcept_ok_of_forall
      intro m hm
      have hrows : ∃ chars, mapExcept (decode_row (some cs)) m = .ok chars := by
        apply mapExcept_ok_of_forall
        intro r hr
        obtain ⟨hrne, hrlt⟩ := h m hm r hr
        exact ⟨cs.getD (argmaxIdx r) ' ', decode_row_ok hrne hrlt⟩
      obtain ⟨chars, hchars⟩ := hrows
      exact ⟨[pyStrip chars], by rw [decode_matrix, hchars]⟩
  · intro cs z e he
    rw [untransform] at he
    obtain ⟨m, _, hme⟩ := mapExcept_error_mem _ _ _ he
    obtain ⟨r, _, hre⟩ := mapExcept_error_mem _ _ _ (decode_matrix_error_inner hme)
    cases decode_row_classify cs r with
    | inl h1 =>
      rw [h1.2] at hre
      cases hre
      exact Or.inl rfl
    | inr h2 =>
      cases h2 with
      | inl h3 =>
        rw [h3.2.2] at hre
        cases hre
      | inr h4 =>
        rw [h4.2.2] at hre
        cases hre
        exact Or.inr rfl

theorem C9_no_validation_witness :
    ∃ out, untransform (some [' ']) [[[5]]] = .ok out :=
  (C9_no_validation.1 [' '] [[[5]]]).mpr (by decide)

/-- C10: for every string `s` longer than padLength whose characters are all
in the charset, padding is a no-op (`pad_smile` returns `s` unchanged) and
encoding succeeds with exactly `s.length` rows — no truncation to padLength
and no error. -/
theorem C10_overlength (cs : List Char) (n : Nat) (s : List Char)
    (hmem : ∀ c ∈ s, c ∈ cs) (hlen : n < s.length) :
    pad_smile n s = s ∧
    ∃ m, one_hot_encoded cs n s = .ok m ∧ m.length = s.length := by
  have hpad : pad_smile n s = s := pad_smile_of_ge (le_of_lt hlen)
  refine ⟨hpad, (pad_smile n s).map (encChar cs), one_hot_encoded_ok ?_, ?_⟩
  · intro c hc
    rw [hpad] at hc
    exact hmem c hc
  · rw [List.length_map, hpad]

theorem C10_overlength_witness :
    pad_smile 1 ['C', 'C'] = ['C', 'C'] ∧
    ∃ m, one_hot_encoded [' ', 'C'] 1 ['C', 'C'] = .ok m ∧
      m.length = (['C', 'C'] : List Char).length :=
  C10_overlength [' ', 'C'] 1 ['C', 'C'] (by decide) (by decide)
